import Mathlib

/-!
Verification of the MAPLINK favicon scraper (`maplink.go`).

Go strings are modelled as `List Char` (the inputs of interest are ASCII,
where Go's byte-oriented operations and this character-level model agree).
Network and database I/O are modelled by explicit oracles and state passing;
a Go runtime panic (out-of-bounds string index) is modelled by `Option.none`.
-/

namespace Maplink

/-- Go strings, modelled as character lists. -/
abbrev Str : Type := List Char

/-- Model of `strings.HasPrefix` (case-sensitive, exact prefix test). -/
def hasPref (s p : Str) : Bool := p.isPrefixOf s

/--
Model of `resolveLink` from `maplink.go`:

    func resolveLink(baseURL, link string) string {
        if strings.HasPrefix(link, "http://") || strings.HasPrefix(link, "https://") {
            return link
        }
        if link[0] == '/' { return baseURL + link }
        return baseURL + "/" + link
    }

The Go expression `link[0]` panics with an index-out-of-range runtime error
when `link` is empty; the panic is modelled as `none`.
-/
def resolveLink (baseURL link : Str) : Option Str :=
  if hasPref link "http://".data || hasPref link "https://".data then
    some link
  else
    match link with
    | [] => none
    | c :: _ => if c = '/' then some (baseURL ++ link) else some (baseURL ++ '/' :: link)

lemma resolveLink_of_absolute (baseURL link : Str)
    (h : hasPref link "http://".data = true ∨ hasPref link "https://".data = true) :
    resolveLink baseURL link = some link := by
  rcases h with h | h <;> simp [resolveLink, h]

lemma hasPref_http_head {link : Str} {c : Char} (hc : link.head? = some c) (h7 : c ≠ 'h') :
    hasPref link "http://".data = false ∧ hasPref link "https://".data = false := by
  cases link with
  | nil => simp at hc
  | cons a l =>
    simp only [List.head?_cons, Option.some.injEq] at hc
    subst hc
    constructor <;>
    · simp only [hasPref, List.isPrefixOf, Bool.and_eq_false_iff]
      left
      simpa using fun h => h7 (by simpa using h.symm)

lemma resolveLink_of_root_relative (baseURL link : Str)
    (h : link.head? = some '/') :
    resolveLink baseURL link = some (baseURL ++ link) := by
  obtain ⟨h1, h2⟩ := hasPref_http_head h (by decide)
  cases link with
  | nil => simp at h
  | cons a l =>
    simp only [List.head?_cons, Option.some.injEq] at h
    subst h
    simp [resolveLink, h1, h2]

lemma resolveLink_of_relative (baseURL link : Str)
    (hne : link ≠ [])
    (h1 : hasPref link "http://".data = false)
    (h2 : hasPref link "https://".data = false)
    (h3 : link.head? ≠ some '/') :
    resolveLink baseURL link = some (baseURL ++ '/' :: link) := by
  cases link with
  | nil => exact absurd rfl hne
  | cons a l =>
    have ha : ¬ a = '/' := by
      intro h
      exact h3 (by simp [h])
    simp [resolveLink, h1, h2, ha]

/-- Case-insensitive literal match at the head of a string, modelling how the
RE2 flag `(?i)` compares the pattern's literal characters (ASCII folding,
which agrees with RE2 on the ASCII inputs in scope). -/
def ciStarts : Str → Str → Bool
  | [], _ => true
  | _ :: _, [] => false
  | p :: ps, c :: cs => (p.toLower == c.toLower) && ciStarts ps cs

/-- RE2 character class `\s`, i.e. `[\t\n\f\r ]`. -/
def isRegexSpace (c : Char) : Bool :=
  c == ' ' || c == '\t' || c == '\n' || c == '\r' || c.val == 12

/-- Characters admitted by the class `[^"\s]` of the favicon pattern. -/
def classOk (c : Char) : Bool := !(c == '"') && !(isRegexSpace c)

/-- The literal `/favicon.ico`. -/
def favPath : Str := "/favicon.ico".data

/-- The literal `favicon.ico`. -/
def favBare : Str := "favicon.ico".data

/-- The subpattern `[^"\s]*?/favicon\.ico` at the head of `s`: the lazy star
takes the shortest run of class characters after which `/favicon.ico`
matches; returns the matched text (original characters). -/
def lazyScan (s : Str) : Option Str :=
  if ciStarts favPath s then some (s.take favPath.length)
  else
    match s with
    | [] => none
    | c :: cs => if classOk c then (lazyScan cs).map (fun m => c :: m) else none

/-- The alternation branch `https?://[^"\s]*?/favicon\.ico` at the head of
`s` (the greedy `s?` can succeed for at most one of the two schemes at any
position, so trying `https://` first is equivalent to RE2's preference
order). -/
def matchScheme (s : Str) : Option Str :=
  if ciStarts "https://".data s then (lazyScan (s.drop 8)).map (fun m => s.take 8 ++ m)
  else if ciStarts "http://".data s then (lazyScan (s.drop 7)).map (fun m => s.take 7 ++ m)
  else none

/-- Leftmost-first match of
`(?i)(https?://[^"\s]*?/favicon\.ico|/favicon\.ico|favicon\.ico)`
at the head of `s`: alternation branches are tried in written order. -/
def matchAt (s : Str) : Option Str :=
  match matchScheme s with
  | some m => some m
  | none =>
    if ciStarts favPath s then some (s.take favPath.length)
    else if ciStarts favBare s then some (s.take favBare.length)
    else none

/-- The scan loop of `regexp.FindAllString`: find the leftmost match, record
it, and resume after its end (advancing at least one character, Go's rule for
empty matches). `fuel` bounds the recursion; `findAllMatches` passes the
string length, which every step consumes at least one character of. -/
def findAllAux : Nat → Str → List Str
  | 0, _ => []
  | _ + 1, [] => []
  | fuel + 1, c :: cs =>
    match matchAt (c :: cs) with
    | some m => m :: findAllAux fuel ((c :: cs).drop (max 1 m.length))
    | none => findAllAux fuel cs

/-- `re.FindAllString(content, -1)` for the favicon pattern. -/
def findAllMatches (content : Str) : List Str := findAllAux content.length content

/-- The dedup loop of `extractFaviconLinks`: the Go code keeps a `seen` map
and a `links` slice that always hold exactly the same elements, so a single
list serves as both. -/
def dedupLoop : List Str → List Str → List Str
  | [], links => links
  | m :: rest, links =>
    if m ∈ links then dedupLoop rest links else dedupLoop rest (links ++ [m])

/-- Model of `extractFaviconLinks` from `maplink.go`: all regex matches, then
stable dedup via a seen-set. -/
def extractFaviconLinks (content : Str) : List Str :=
  dedupLoop (findAllMatches content) []

/-- Written from the spec: "the sequence of distinct matches in order of
first appearance". -/
def dedupKeepFirst : List Str → List Str
  | [] => []
  | x :: xs => x :: dedupKeepFirst (xs.filter (fun y => decide (y ≠ x)))
termination_by l => l.length
decreasing_by simp only [List.length_cons]; exact Nat.lt_succ_of_le (List.length_filter_le _ _)

lemma dedupKeepFirst_nil : dedupKeepFirst [] = [] := by
  simp [dedupKeepFirst]

lemma dedupKeepFirst_cons (x : Str) (xs : List Str) :
    dedupKeepFirst (x :: xs) = x :: dedupKeepFirst (xs.filter (fun y => decide (y ≠ x))) := by
  simp [dedupKeepFirst]

lemma mem_dedupKeepFirst : ∀ l : List Str, ∀ x, x ∈ dedupKeepFirst l ↔ x ∈ l := by
  intro l
  induction l using dedupKeepFirst.induct with
  | case1 => simp [dedupKeepFirst_nil]
  | case2 a as ih =>
    intro x
    rw [dedupKeepFirst_cons, List.mem_cons, List.mem_cons, ih x, List.mem_filter]
    by_cases hx : x = a
    · simp [hx]
    · simp [hx]

lemma nodup_dedupKeepFirst : ∀ l : List Str, (dedupKeepFirst l).Nodup := by
  intro l
  induction l using dedupKeepFirst.induct with
  | case1 => simp [dedupKeepFirst_nil]
  | case2 a as ih =>
    rw [dedupKeepFirst_cons]
    refine List.nodup_cons.2 ⟨fun hmem => ?_, ih⟩
    have := (mem_dedupKeepFirst _ a).1 hmem
    simp [List.mem_filter] at this

lemma dedupKeepFirst_eq_nil_iff (l : List Str) : dedupKeepFirst l = [] ↔ l = [] := by
  cases l with
  | nil => simp [dedupKeepFirst_nil]
  | cons a as => simp [dedupKeepFirst_cons]

lemma dedupLoop_eq (ms : List Str) : ∀ links : List Str,
    dedupLoop ms links = links ++ dedupKeepFirst (ms.filter (fun y => decide (y ∉ links))) := by
  induction ms with
  | nil => intro links; simp [dedupLoop, dedupKeepFirst_nil]
  | cons m rest ih =>
    intro links
    by_cases hm : m ∈ links
    · have h1 : dedupLoop (m :: rest) links = dedupLoop rest links := by
        simp [dedupLoop, hm]
      rw [h1, ih links, List.filter_cons_of_neg (by simp [hm])]
    · have h1 : dedupLoop (m :: rest) links = dedupLoop rest (links ++ [m]) := by
        simp [dedupLoop, hm]
      have h2 : List.filter (fun y => decide (y ∉ links)) (m :: rest) =
          m :: List.filter (fun y => decide (y ∉ links)) rest :=
        List.filter_cons_of_pos (by simp [hm])
      rw [h1, ih (links ++ [m]), h2, dedupKeepFirst_cons, List.filter_filter]
      have h3 : List.filter (fun y => decide (y ≠ m) && decide (y ∉ links)) rest =
          List.filter (fun y => decide (y ∉ links ++ [m])) rest := by
        apply List.filter_congr
        intro y _
        by_cases hy : y = m
        · simp [hy]
        · by_cases h2y : y ∈ links <;> simp [hy, h2y]
      rw [h3, List.append_assoc, List.singleton_append]

/--
C4: `extractFaviconLinks` returns exactly the distinct regex matches of the
favicon pattern, in order of first appearance (one entry per distinct match,
duplicates dropped), and returns the empty sequence exactly when the text
has no match.
-/
theorem extractFaviconLinks_distinct_first_occurrence (content : Str) :
    extractFaviconLinks content = dedupKeepFirst (findAllMatches content) ∧
    (extractFaviconLinks content).Nodup ∧
    (∀ x, x ∈ extractFaviconLinks content ↔ x ∈ findAllMatches content) ∧
    (extractFaviconLinks content = [] ↔ findAllMatches content = []) := by
  have hbase : extractFaviconLinks content = dedupKeepFirst (findAllMatches content) := by
    have h := dedupLoop_eq (findAllMatches content) []
    have hfilter : (findAllMatches content).filter (fun y => decide (y ∉ ([] : List Str))) =
        findAllMatches content := by
      apply List.filter_eq_self.2
      intro a _
      simp
    simpa [extractFaviconLinks, hfilter] using h
  refine ⟨hbase, ?_, ?_, ?_⟩
  · rw [hbase]; exact nodup_dedupKeepFirst _
  · intro x; rw [hbase]; exact mem_dedupKeepFirst _ x
  · rw [hbase]; exact dedupKeepFirst_eq_nil_iff _

lemma ciStarts_length_le : ∀ p s : Str, ciStarts p s = true → p.length ≤ s.length
  | [], _ => by simp
  | _ :: _, [] => by simp [ciStarts]
  | p :: ps, c :: cs => by
    simp only [ciStarts, Bool.and_eq_true, List.length_cons]
    exact fun h => Nat.succ_le_succ (ciStarts_length_le ps cs h.2)

lemma take_ne_nil_of {s : Str} {n : Nat} (hn : n ≠ 0) (hs : s ≠ []) : s.take n ≠ [] := by
  simp [List.take_eq_nil_iff, hn, hs]

lemma ne_nil_of_ciStarts {p s : Str} (hp : p ≠ []) (h : ciStarts p s = true) : s ≠ [] := by
  intro hs
  subst hs
  cases p with
  | nil => exact hp rfl
  | cons a l => simp [ciStarts] at h

lemma matchScheme_ne_nil {s m : Str} (h : matchScheme s = some m) : m ≠ [] := by
  unfold matchScheme at h
  split at h
  case isTrue hci =>
    cases hls : lazyScan (s.drop 8) with
    | none => rw [hls] at h; simp at h
    | some m0 =>
      rw [hls] at h
      simp only [Option.map_some', Option.some.injEq] at h
      subst h
      have hs : s ≠ [] := ne_nil_of_ciStarts (by decide) hci
      intro hc
      exact @take_ne_nil_of s 8 (by decide) hs (List.append_eq_nil.1 hc).1
  case isFalse =>
    split at h
    case isTrue hci =>
      cases hls : lazyScan (s.drop 7) with
      | none => rw [hls] at h; simp at h
      | some m0 =>
        rw [hls] at h
        simp only [Option.map_some', Option.some.injEq] at h
        subst h
        have hs : s ≠ [] := ne_nil_of_ciStarts (by decide) hci
        intro hc
        exact @take_ne_nil_of s 7 (by decide) hs (List.append_eq_nil.1 hc).1
    case isFalse => simp at h

lemma matchAt_ne_nil {s m : Str} (h : matchAt s = some m) : m ≠ [] := by
  unfold matchAt at h
  cases hms : matchScheme s with
  | some m0 =>
    rw [hms] at h
    simp only [Option.some.injEq] at h
    subst h
    exact matchScheme_ne_nil hms
  | none =>
    rw [hms] at h
    simp only [] at h
    split at h
    case isTrue hci =>
      simp only [Option.some.injEq] at h
      subst h
      exact take_ne_nil_of (by decide) (ne_nil_of_ciStarts (by decide) hci)
    case isFalse =>
      split at h
      case isTrue hci =>
        simp only [Option.some.injEq] at h
        subst h
        exact take_ne_nil_of (by decide) (ne_nil_of_ciStarts (by decide) hci)
      case isFalse => simp at h

lemma ne_nil_of_mem_findAllAux : ∀ fuel : Nat, ∀ s m : Str, m ∈ findAllAux fuel s → m ≠ []
  | 0, s, m => by simp [findAllAux]
  | _ + 1, [], m => by simp [findAllAux]
  | fuel + 1, c :: cs, m => by
    simp only [findAllAux]
    cases hma : matchAt (c :: cs) with
    | some m0 =>
      intro hmem
      rcases List.mem_cons.1 hmem with rfl | hmem
      · exact matchAt_ne_nil hma
      · exact ne_nil_of_mem_findAllAux fuel _ m hmem
    | none => exact ne_nil_of_mem_findAllAux fuel cs m

lemma mem_dedupLoop : ∀ ms links : List Str, ∀ x : Str,
    x ∈ dedupLoop ms links → x ∈ links ∨ x ∈ ms := by
  intro ms
  induction ms with
  | nil => intro links x h; exact Or.inl (by simpa [dedupLoop] using h)
  | cons m rest ih =>
    intro links x h
    by_cases hm : m ∈ links
    · rcases ih links x (by simpa [dedupLoop, hm] using h) with h1 | h1
      · exact Or.inl h1
      · exact Or.inr (List.mem_cons_of_mem _ h1)
    · rcases ih (links ++ [m]) x (by simpa [dedupLoop, hm] using h) with h1 | h1
      · rcases List.mem_append.1 h1 with h2 | h2
        · exact Or.inl h2
        · exact Or.inr (by simpa using Or.inl (List.mem_singleton.1 h2))
      · exact Or.inr (List.mem_cons_of_mem _ h1)

lemma extract_mem_ne_nil {content m : Str} (h : m ∈ extractFaviconLinks content) : m ≠ [] := by
  rcases mem_dedupLoop _ _ _ h with h1 | h1
  · simp at h1
  · exact ne_nil_of_mem_findAllAux _ _ _ h1

/--
C1: the spec requires the Link Resolver to treat an empty Favicon Reference
as a skip rather than a crash; the implementation instead evaluates `link[0]`
on the empty string, an out-of-bounds index (modelled as `none`), so the code
crashes exactly where the spec demands a guard.
-/
theorem resolveLink_empty_ref_out_of_bounds :
    resolveLink "http://a.com".data [] = none := by
  decide

/--
C3: for every base URL and non-empty reference, `resolveLink` returns the
reference unchanged when it starts with `http://` or `https://`, returns
`base ++ reference` when it starts with `/`, and `base ++ "/" ++ reference`
otherwise; together with the three concrete examples from the spec.
-/
theorem resolveLink_resolution_rules (baseURL link : Str) (hne : link ≠ []) :
    (hasPref link "http://".data = true ∨ hasPref link "https://".data = true →
      resolveLink baseURL link = some link) ∧
    (link.head? = some '/' → resolveLink baseURL link = some (baseURL ++ link)) ∧
    (hasPref link "http://".data = false → hasPref link "https://".data = false →
      link.head? ≠ some '/' → resolveLink baseURL link = some (baseURL ++ '/' :: link)) ∧
    resolveLink "http://a.com".data "http://b.com/f.ico".data = some "http://b.com/f.ico".data ∧
    resolveLink "http://a.com".data "/favicon.ico".data = some "http://a.com/favicon.ico".data ∧
    resolveLink "http://a.com".data "favicon.ico".data = some "http://a.com/favicon.ico".data := by
  refine ⟨resolveLink_of_absolute baseURL link,
          resolveLink_of_root_relative baseURL link,
          resolveLink_of_relative baseURL link hne,
          by decide, by decide, by decide⟩

/-- Concrete instantiation of the C3 resolution rules at `link = "/favicon.ico"`. -/
theorem resolveLink_resolution_rules_witness :
    resolveLink "http://a.com".data "/favicon.ico".data =
      some ("http://a.com".data ++ "/favicon.ico".data) := by
  have h := resolveLink_resolution_rules "http://a.com".data "/favicon.ico".data (by decide)
  exact h.2.1 (by decide)

/--
C9: the resolver's scheme test is case-sensitive while the extractor matches
case-insensitively: every reference that does not start with exactly the
lowercase `http://` or `https://` (and does not start with `/`) is treated as
relative and resolved to `base ++ "/" ++ reference`; the extractor can indeed
produce such a reference, e.g. `HTTP://A.COM/FAVICON.ICO`, which is then
glued onto the base URL instead of being returned unchanged.
-/
theorem resolveLink_case_sensitive_scheme (baseURL link : Str)
    (hne : link ≠ [])
    (h1 : hasPref link "http://".data = false)
    (h2 : hasPref link "https://".data = false)
    (h3 : link.head? ≠ some '/') :
    resolveLink baseURL link = some (baseURL ++ '/' :: link) ∧
    extractFaviconLinks "href=\"HTTP://A.COM/FAVICON.ICO\"".data =
      ["HTTP://A.COM/FAVICON.ICO".data] ∧
    resolveLink "http://x.com".data "HTTP://A.COM/FAVICON.ICO".data =
      some "http://x.com/HTTP://A.COM/FAVICON.ICO".data :=
  ⟨resolveLink_of_relative baseURL link hne h1 h2 h3, by decide, by decide⟩

/-- Concrete instantiation of C9 at the uppercase reference the extractor
produces from `HTTP://A.COM/FAVICON.ICO`. -/
theorem resolveLink_case_sensitive_scheme_witness :
    resolveLink "http://x.com".data "HTTP://A.COM/FAVICON.ICO".data =
      some ("http://x.com".data ++ '/' :: "HTTP://A.COM/FAVICON.ICO".data) :=
  (resolveLink_case_sensitive_scheme "http://x.com".data "HTTP://A.COM/FAVICON.ICO".data
    (by decide) (by decide) (by decide) (by decide)).1

/-- Outcome of one `http.Get` round trip together with the body read:
either the connection itself fails, or a response arrives whose body read
fails, or a response arrives with a status code and a fully readable body. -/
inductive HTTPResult : Type where
  | transportFail (msg : Str)
  | bodyReadFail (status : Nat) (msg : Str)
  | response (status : Nat) (body : Str)
deriving DecidableEq, Repr

/-- Errors surfaced by `fetchHTML`. -/
inductive FetchError : Type where
  | transport (msg : Str)
  | status (code : Nat)
deriving DecidableEq, Repr

/--
Model of `fetchHTML` from `maplink.go`: a transport failure is returned
as-is; otherwise the status code is compared against `http.StatusOK`
(exactly 200) and any other code yields the status error; only then is the
body read, whose failure is again returned as-is.
-/
def fetchHTML : HTTPResult → Except FetchError Str
  | .transportFail msg => .error (.transport msg)
  | .bodyReadFail status msg =>
      if status ≠ 200 then .error (.status status) else .error (.transport msg)
  | .response status body =>
      if status ≠ 200 then .error (.status status) else .ok body

/--
C5 counterexample: the claim says `fetchHTML` returns the body exactly on a
success (2xx) status and a `StatusError` exactly on a non-2xx status, but the
code compares against `http.StatusOK` only: the 2xx status 201 is rejected
with a `StatusError` instead of yielding the body.
-/
theorem fetchHTML_status_201_not_body :
    (200 ≤ 201 ∧ 201 < 300) ∧
    fetchHTML (.response 201 "created".data) ≠ .ok "created".data ∧
    fetchHTML (.response 201 "created".data) = .error (.status 201) := by
  refine ⟨⟨by decide, by decide⟩, by simp [fetchHTML], by simp [fetchHTML]⟩

/--
C5 (amended): `fetchHTML` returns the full body exactly when the status is
200 (`http.StatusOK`), signals a `StatusError` carrying the code exactly when
the status differs from 200, and yields a `TransportError` on connection
failures and on body-read failures of a 200 response.
-/
theorem fetchHTML_non200_classification (status : Nat) (body msg : Str) :
    (fetchHTML (.response status body) = .ok body ↔ status = 200) ∧
    (fetchHTML (.response status body) = .error (.status status) ↔ status ≠ 200) ∧
    fetchHTML (.transportFail msg) = .error (.transport msg) ∧
    (fetchHTML (.bodyReadFail status msg) = .error (.transport msg) ↔ status = 200) ∧
    (fetchHTML (.bodyReadFail status msg) = .error (.status status) ↔ status ≠ 200) := by
  by_cases h : status = 200 <;>
    simp [fetchHTML, h]

/-- One row of the `favicons` table: `(link UNIQUE, md5, sha256)` (the
autoincrement id is determined by the row's position and not modelled
separately). -/
structure FaviconRecord : Type where
  link : Str
  md5 : Str
  sha256 : Str
deriving DecidableEq, Repr

/-- The `favicons` table as a list of rows in insertion order. -/
abbrev DB : Type := List FaviconRecord

/--
Model of `saveToDatabase` from `maplink.go`, i.e.
`INSERT OR IGNORE INTO favicons(link, md5, sha256) VALUES(?, ?, ?)` against a
table with a UNIQUE constraint on `link`: if a row with the same link exists
the statement is a no-op, otherwise the row is appended.  SQLite reports no
error in either case (genuine storage failures are outside the model).
-/
def saveToDatabase (db : DB) (link md5h sha256h : Str) : DB :=
  if db.any (fun r => r.link == link) then db else db ++ [⟨link, md5h, sha256h⟩]

/-- Arguments of one `saveToDatabase` call: (link, md5, sha256). -/
abbrev InsertReq : Type := Str × Str × Str

/-- The row that an insert request would create. -/
def mkRec (t : InsertReq) : FaviconRecord := ⟨t.1, t.2.1, t.2.2⟩

/-- A sequence of `saveToDatabase` calls, applied in order. -/
def insertRuns (inserts : List InsertReq) (db : DB) : DB :=
  inserts.foldl (fun d t => saveToDatabase d t.1 t.2.1 t.2.2) db

/-- The row stored under a link (`SELECT ... WHERE link = ?`). -/
def lookupRecord (db : DB) (link : Str) : Option FaviconRecord :=
  db.find? (fun r => r.link == link)

lemma find?_some_of_any {db : DB} {p : FaviconRecord → Bool} (h : db.any p = true) :
    ∃ r, db.find? p = some r := by
  obtain ⟨x, hx, hpx⟩ := List.any_eq_true.1 h
  exact Option.isSome_iff_exists.1 (List.find?_isSome.2 ⟨x, hx, hpx⟩)

lemma find?_none_of_any_false {db : DB} {p : FaviconRecord → Bool} (h : db.any p = false) :
    db.find? p = none := by
  apply List.find?_eq_none.2
  intro x hx hpx
  have htrue : db.any p = true := List.any_eq_true.2 ⟨x, hx, hpx⟩
  rw [h] at htrue
  exact Bool.noConfusion htrue

lemma insertRuns_lookup : ∀ inserts : List InsertReq, ∀ db : DB, ∀ link : Str,
    lookupRecord (insertRuns inserts db) link =
      (lookupRecord db link).or ((inserts.find? (fun t => t.1 == link)).map mkRec) := by
  intro inserts
  induction inserts with
  | nil =>
    intro db link
    simp [insertRuns, lookupRecord]
  | cons t rest ih =>
    intro db link
    have hstep : insertRuns (t :: rest) db =
        insertRuns rest (saveToDatabase db t.1 t.2.1 t.2.2) := by
      simp [insertRuns]
    rw [hstep, ih]
    by_cases hpres : db.any (fun r => r.link == t.1) = true
    · have hdb : saveToDatabase db t.1 t.2.1 t.2.2 = db := by
        simp [saveToDatabase, hpres]
      rw [hdb]
      by_cases htl : (t.1 == link) = true
      · have heq : t.1 = link := eq_of_beq htl
        subst heq
        obtain ⟨r, hr⟩ := find?_some_of_any hpres
        have hfind : (t :: rest).find? (fun s => s.1 == t.1) = some t := by
          simp [List.find?]
        rw [hfind]
        simp [lookupRecord, hr]
      · have hfind : (t :: rest).find? (fun s => s.1 == link) =
            rest.find? (fun s => s.1 == link) := by
          simp [List.find?, htl]
        rw [hfind]
    · have hpres' : db.any (fun r => r.link == t.1) = false := by
        cases hx : db.any (fun r => r.link == t.1) with
        | true => exact absurd hx hpres
        | false => rfl
      have hdb : saveToDatabase db t.1 t.2.1 t.2.2 = db ++ [mkRec t] := by
        simp [saveToDatabase, hpres', mkRec]
      rw [hdb, lookupRecord, List.find?_append]
      by_cases htl : (t.1 == link) = true
      · have heq : t.1 = link := eq_of_beq htl
        subst heq
        have hnone : db.find? (fun r => r.link == t.1) = none :=
          find?_none_of_any_false hpres'
        have hsingle : [mkRec t].find? (fun r => r.link == t.1) = some (mkRec t) := by
          simp [List.find?, mkRec]
        have hfind : (t :: rest).find? (fun s => s.1 == t.1) = some t := by
          simp [List.find?]
        rw [hsingle, hfind, lookupRecord, hnone]
        simp
      · have hsingle : [mkRec t].find? (fun r => r.link == link) = none := by
          simp [List.find?, mkRec, htl]
        have hfind : (t :: rest).find? (fun s => s.1 == link) =
            rest.find? (fun s => s.1 == link) := by
          simp [List.find?, htl]
        rw [hsingle, hfind, lookupRecord]
        simp

lemma insertRuns_links_nodup : ∀ inserts : List InsertReq, ∀ db : DB,
    (db.map (fun r => r.link)).Nodup → ((insertRuns inserts db).map (fun r => r.link)).Nodup := by
  intro inserts
  induction inserts with
  | nil => intro db h; simpa [insertRuns] using h
  | cons t rest ih =>
    intro db h
    have hstep : insertRuns (t :: rest) db =
        insertRuns rest (saveToDatabase db t.1 t.2.1 t.2.2) := by
      simp [insertRuns]
    rw [hstep]
    apply ih
    by_cases hpres : db.any (fun r => r.link == t.1) = true
    · simpa [saveToDatabase, hpres] using h
    · have hpres' : db.any (fun r => r.link == t.1) = false := by
        cases hx : db.any (fun r => r.link == t.1) with
        | true => exact absurd hx hpres
        | false => rfl
      have hnotmem : t.1 ∉ db.map (fun r => r.link) := by
        intro hmem
        obtain ⟨r, hr, hrl⟩ := List.mem_map.1 hmem
        have : db.any (fun s => s.link == t.1) = true :=
          List.any_eq_true.2 ⟨r, hr, by simp [hrl]⟩
        rw [hpres'] at this
        exact Bool.noConfusion this
      have hdb : saveToDatabase db t.1 t.2.1 t.2.2 = db ++ [⟨t.1, t.2.1, t.2.2⟩] := by
        simp [saveToDatabase, hpres']
      rw [hdb]
      simp [List.nodup_append, h, hnotmem]

/--
C2: the Result Store keeps at most one record per distinct Resolved Favicon
URL: inserting a link already present is a silent no-op that changes nothing,
the table never holds two rows with the same link, and after any sequence of
inserts starting from the empty store the row stored under a link is exactly
the one created by the first insert with that link (no update-on-duplicate).
-/
theorem saveToDatabase_dedup_first_insert_wins
    (inserts : List InsertReq) (link : Str) :
    (∀ db : DB, ∀ md5h sha256h : Str, db.any (fun r => r.link == link) = true →
      saveToDatabase db link md5h sha256h = db) ∧
    ((insertRuns inserts []).map (fun r => r.link)).Nodup ∧
    lookupRecord (insertRuns inserts []) link =
      (inserts.find? (fun t => t.1 == link)).map mkRec := by
  refine ⟨?_, insertRuns_links_nodup inserts [] (by simp), ?_⟩
  · intro db md5h sha256h h
    simp [saveToDatabase, h]
  · have h := insertRuns_lookup inserts [] link
    simpa [lookupRecord] using h

/-- The spec's store-idempotence scenario, concretely: the same link inserted
twice with different digests leaves exactly the first row. -/
theorem saveToDatabase_dedup_first_insert_wins_witness :
    saveToDatabase [⟨"u".data, "a".data, "b".data⟩] "u".data "c".data "d".data =
      [⟨"u".data, "a".data, "b".data⟩] ∧
    lookupRecord
      (insertRuns [("u".data, "a".data, "b".data), ("u".data, "c".data, "d".data)] [])
      "u".data = some ⟨"u".data, "a".data, "b".data⟩ := by
  have h := saveToDatabase_dedup_first_insert_wins
      [("u".data, "a".data, "b".data), ("u".data, "c".data, "d".data)] "u".data
  refine ⟨h.1 _ "c".data "d".data (by decide), ?_⟩
  rw [h.2.2]
  decide

/-- Go's `unicode.IsSpace`: the Unicode White_Space property
(`\t \n \v \f \r space NEL NBSP` and the Unicode space separators). -/
def isUniSpace (c : Char) : Bool :=
  c == ' ' || c == '\t' || c == '\n' || c == '\r' || c.val == 11 || c.val == 12 ||
  c.val == 0x85 || c.val == 0xA0 || c.val == 0x1680 ||
  (0x2000 ≤ c.val && c.val ≤ 0x200A) || c.val == 0x2028 || c.val == 0x2029 ||
  c.val == 0x202F || c.val == 0x205F || c.val == 0x3000

/-- Model of `strings.TrimSpace`: leading and trailing white space removed. -/
def trimSpace (s : Str) : Str :=
  ((s.dropWhile isUniSpace).reverse.dropWhile isUniSpace).reverse

/--
Model of `readURLsFromFile` from `maplink.go`.  The `bufio.Scanner` loop is
abstracted to the file's list of lines (`scanner.Text()` yields each line
without its terminator); each line is trimmed and appended to the output
when non-blank.
-/
def readURLsFromFile (fileLines : List Str) : List Str :=
  fileLines.foldl
    (fun urls line =>
      let url := trimSpace line
      if url ≠ [] then urls ++ [url] else urls)
    []

lemma readURLs_foldl_eq : ∀ fileLines : List Str, ∀ acc : List Str,
    fileLines.foldl
      (fun urls line =>
        let url := trimSpace line
        if url ≠ [] then urls ++ [url] else urls)
      acc =
    acc ++ (fileLines.map trimSpace).filter (fun u => decide (u ≠ [])) := by
  intro fileLines
  induction fileLines with
  | nil => intro acc; simp
  | cons line rest ih =>
    intro acc
    by_cases h : trimSpace line = []
    · simp only [List.foldl_cons, List.map_cons, List.filter_cons, h]
      simpa using ih acc
    · simp only [List.foldl_cons, List.map_cons, List.filter_cons]
      rw [if_pos h, ih (acc ++ [trimSpace line])]
      simp [h]

/--
C7: reading the input file never yields a blank line as a URL: the result is
exactly the non-blank trimmed lines, each trimmed, in particular the count of
returned URLs equals the count of non-blank trimmed lines.
-/
theorem readURLsFromFile_nonblank_trimmed_lines (fileLines : List Str) :
    readURLsFromFile fileLines =
      (fileLines.map trimSpace).filter (fun u => decide (u ≠ [])) ∧
    (readURLsFromFile fileLines).length =
      ((fileLines.map trimSpace).filter (fun u => decide (u ≠ []))).length := by
  have h := readURLs_foldl_eq fileLines []
  exact ⟨by simpa [readURLsFromFile] using h, by rw [readURLsFromFile, h]; simp⟩

lemma head?_dropWhile_not {p : Char → Bool} :
    ∀ l : Str, ∀ c : Char, (l.dropWhile p).head? = some c → p c = false := by
  intro l
  induction l with
  | nil => intro c h; simp [List.dropWhile] at h
  | cons a as ih =>
    intro c h
    by_cases hp : p a = true
    · rw [List.dropWhile_cons_of_pos hp] at h
      exact ih c h
    · rw [List.dropWhile_cons_of_neg hp] at h
      simp only [List.head?_cons, Option.some.injEq] at h
      subst h
      cases hx : p a with
      | true => exact absurd hx hp
      | false => rfl

lemma exists_dropWhile_append {p : Char → Bool} :
    ∀ l : Str, ∃ t : Str, l = t ++ l.dropWhile p := by
  intro l
  induction l with
  | nil => exact ⟨[], rfl⟩
  | cons a as ih =>
    by_cases hp : p a = true
    · obtain ⟨t, ht⟩ := ih
      exact ⟨a :: t, by rw [List.dropWhile_cons_of_pos hp]; simpa using ht⟩
    · exact ⟨[], by rw [List.dropWhile_cons_of_neg hp]; simp⟩

lemma trimSpace_head_not_space {s : Str} {c : Char}
    (h : (trimSpace s).head? = some c) : isUniSpace c = false := by
  obtain ⟨t, ht⟩ :=
    exists_dropWhile_append (p := isUniSpace) (s.dropWhile isUniSpace).reverse
  have hu : s.dropWhile isUniSpace = trimSpace s ++ t.reverse := by
    calc s.dropWhile isUniSpace = (s.dropWhile isUniSpace).reverse.reverse := by simp
    _ = (t ++ (s.dropWhile isUniSpace).reverse.dropWhile isUniSpace).reverse := by
        rw [← ht]
    _ = trimSpace s ++ t.reverse := by rw [List.reverse_append]; rfl
  have hhead : (s.dropWhile isUniSpace).head? = some c := by
    rw [hu, List.head?_append, h]
    rfl
  exact head?_dropWhile_not s c hhead

lemma trimSpace_getLast_not_space {s : Str} {c : Char}
    (h : (trimSpace s).getLast? = some c) : isUniSpace c = false := by
  have hrev : (trimSpace s).reverse.head? = some c := by
    rw [List.head?_reverse]
    exact h
  have : ((s.dropWhile isUniSpace).reverse.dropWhile isUniSpace).head? = some c := by
    simpa [trimSpace] using hrev
  exact head?_dropWhile_not _ c this

/--
C10: every element returned by `readURLsFromFile` is non-empty, starts with a
non-whitespace character and ends with a non-whitespace character, and the
elements occur in the same relative order as their source lines (the result
is a sublist of the trimmed lines in file order).
-/
theorem readURLsFromFile_elements_invariant (fileLines : List Str) :
    (∀ u ∈ readURLsFromFile fileLines,
      u ≠ [] ∧
      (∀ c, u.head? = some c → isUniSpace c = false) ∧
      (∀ c, u.getLast? = some c → isUniSpace c = false)) ∧
    (readURLsFromFile fileLines).Sublist (fileLines.map trimSpace) := by
  have heq := (readURLsFromFile_nonblank_trimmed_lines fileLines).1
  constructor
  · intro u hu
    rw [heq] at hu
    have hmem := List.mem_filter.1 hu
    obtain ⟨line, _, hline⟩ := List.mem_map.1 hmem.1
    have hne : u ≠ [] := by simpa using hmem.2
    refine ⟨hne, ?_, ?_⟩
    · intro c hc
      exact trimSpace_head_not_space (s := line) (by rw [hline]; exact hc)
    · intro c hc
      exact trimSpace_getLast_not_space (s := line) (by rw [hline]; exact hc)
  · rw [heq]
    exact List.filter_sublist _

/-- Concrete instantiation of C10 on a two-line file with surrounding blanks
and whitespace. -/
theorem readURLsFromFile_elements_invariant_witness :
    "http://a.com".data ∈ readURLsFromFile ["  http://a.com  ".data, "   ".data] ∧
    "http://a.com".data ≠ [] ∧
    (readURLsFromFile ["  http://a.com  ".data, "   ".data]).Sublist
      (["  http://a.com  ".data, "   ".data].map trimSpace) := by
  have hmem : "http://a.com".data ∈ readURLsFromFile ["  http://a.com  ".data, "   ".data] := by
    decide
  have h := readURLsFromFile_elements_invariant ["  http://a.com  ".data, "   ".data]
  exact ⟨hmem, (h.1 _ hmem).1, h.2⟩

/-- The environment of one run: the outcome of the page `http.Get` for every
URL, and the outcome of `calculateHashes` for every resolved favicon URL.
`calculateHashes` performs two favicon fetches and digests their byte
streams; network and digesting are I/O from the model's point of view, so it
is an oracle returning either the two lowercase hex digests or the error it
reports. -/
structure World : Type where
  pageFetch : Str → HTTPResult
  calcHashes : Str → Except Str (Str × Str)

/-- One console line of the run.  Stdout: `processing`, `noLinks`,
`favicon`.  Stderr: `errFetch` (which carries only the error, not the URL,
as in the Go format string), `errHash`.  The stderr line for a failed
database insert cannot occur in the model because `INSERT OR IGNORE` only
fails on genuine storage faults, which are outside the model. -/
inductive Event : Type where
  | processing (url : Str)
  | errFetch (e : FetchError)
  | noLinks
  | errHash (fullURL : Str) (msg : Str)
  | favicon (fullURL md5h sha256h : Str)
deriving DecidableEq, Repr

/-- The inner loop of `main`: resolve each link, hash it, report, store; a
hash error logs to stderr and continues with the next link.  A `resolveLink`
panic (`none`) aborts the whole process, modelled by `none`. -/
def processLinks (w : World) (baseURL : Str) : DB → List Str → Option (DB × List Event)
  | db, [] => some (db, [])
  | db, link :: rest =>
    match resolveLink baseURL link with
    | none => none
    | some fullURL =>
      match w.calcHashes fullURL with
      | .error msg =>
        match processLinks w baseURL db rest with
        | none => none
        | some (db2, evs) => some (db2, Event.errHash fullURL msg :: evs)
      | .ok (md5h, sha256h) =>
        match processLinks w baseURL (saveToDatabase db fullURL md5h sha256h) rest with
        | none => none
        | some (db2, evs) => some (db2, Event.favicon fullURL md5h sha256h :: evs)

/-- One iteration of the outer loop of `main` for one Target URL: progress
line, page fetch (an error logs and continues), link extraction (no links is
reported and skipped), then the inner loop. -/
def processURL (w : World) (db : DB) (baseURL : Str) : Option (DB × List Event) :=
  match fetchHTML (w.pageFetch baseURL) with
  | .error e => some (db, [Event.processing baseURL, Event.errFetch e])
  | .ok htmlContent =>
    let faviconLinks := extractFaviconLinks htmlContent
    if faviconLinks.length = 0 then
      some (db, [Event.processing baseURL, Event.noLinks])
    else
      match processLinks w baseURL db faviconLinks with
      | none => none
      | some (db2, evs) => some (db2, Event.processing baseURL :: evs)

/-- The outer loop of `main` over all Target URLs. -/
def runAll (w : World) : DB → List Str → Option (DB × List Event)
  | db, [] => some (db, [])
  | db, baseURL :: rest =>
    match processURL w db baseURL with
    | none => none
    | some (db1, evs1) =>
      match runAll w db1 rest with
      | none => none
      | some (db2, evs2) => some (db2, evs1 ++ evs2)

/-- Projection of the "Processing URL" progress lines from a log. -/
def processedOf : Event → Option Str
  | .processing url => some url
  | _ => none

lemma resolveLink_isSome (baseURL link : Str) (hne : link ≠ []) :
    ∃ r, resolveLink baseURL link = some r := by
  unfold resolveLink
  split
  · exact ⟨link, rfl⟩
  · cases link with
    | nil => exact absurd rfl hne
    | cons c cs =>
      by_cases hc : c = '/'
      · exact ⟨baseURL ++ c :: cs, by simp [hc]⟩
      · exact ⟨baseURL ++ '/' :: c :: cs, by simp [hc]⟩

lemma processLinks_total (w : World) (baseURL : Str) :
    ∀ links : List Str, ∀ db : DB, (∀ l ∈ links, l ≠ []) →
      ∃ db2 evs, processLinks w baseURL db links = some (db2, evs) ∧
        evs.filterMap processedOf = [] := by
  intro links
  induction links with
  | nil => intro db _; exact ⟨db, [], rfl, rfl⟩
  | cons link rest ih =>
    intro db h
    have hne : link ≠ [] := h link (List.mem_cons_self _ _)
    have hrest : ∀ l ∈ rest, l ≠ [] := fun l hl => h l (List.mem_cons_of_mem _ hl)
    obtain ⟨fullURL, hfull⟩ := resolveLink_isSome baseURL link hne
    cases hch : w.calcHashes fullURL with
    | error msg =>
      obtain ⟨db2, evs, hpl, hproc⟩ := ih db hrest
      refine ⟨db2, Event.errHash fullURL msg :: evs, ?_, ?_⟩
      · simp [processLinks, hfull, hch, hpl]
      · simp [List.filterMap_cons, processedOf, hproc]
    | ok pair =>
      obtain ⟨md5h, sha256h⟩ := pair
      obtain ⟨db2, evs, hpl, hproc⟩ := ih (saveToDatabase db fullURL md5h sha256h) hrest
      refine ⟨db2, Event.favicon fullURL md5h sha256h :: evs, ?_, ?_⟩
      · simp [processLinks, hfull, hch, hpl]
      · simp [List.filterMap_cons, processedOf, hproc]

lemma processURL_total (w : World) (db : DB) (baseURL : Str) :
    ∃ db2 evs, processURL w db baseURL = some (db2, evs) ∧
      evs.filterMap processedOf = [baseURL] := by
  cases hf : fetchHTML (w.pageFetch baseURL) with
  | error e =>
    refine ⟨db, [Event.processing baseURL, Event.errFetch e], ?_, ?_⟩
    · simp [processURL, hf]
    · simp [List.filterMap_cons, processedOf]
  | ok htmlContent =>
    by_cases hlen : (extractFaviconLinks htmlContent).length = 0
    · refine ⟨db, [Event.processing baseURL, Event.noLinks], ?_, ?_⟩
      · simp [processURL, hf, hlen]
      · simp [List.filterMap_cons, processedOf]
    · obtain ⟨db2, evs, hpl, hproc⟩ :=
        processLinks_total w baseURL (extractFaviconLinks htmlContent) db
          (fun l hl => extract_mem_ne_nil hl)
      refine ⟨db2, Event.processing baseURL :: evs, ?_, ?_⟩
      · simp [processURL, hf, hlen, hpl]
      · simp [List.filterMap_cons, processedOf, hproc]

lemma runAll_total (w : World) : ∀ urls : List Str, ∀ db : DB,
    ∃ db2 log, runAll w db urls = some (db2, log) ∧
      log.filterMap processedOf = urls := by
  intro urls
  induction urls with
  | nil => intro db; exact ⟨db, [], rfl, rfl⟩
  | cons u rest ih =>
    intro db
    obtain ⟨db1, evs1, hp, hproc1⟩ := processURL_total w db u
    obtain ⟨db2, log2, hr, hproc2⟩ := ih db1
    refine ⟨db2, evs1 ++ log2, ?_, ?_⟩
    · simp [runAll, hp, hr]
    · simp [List.filterMap_append, hproc1, hproc2]

/--
C6: a failure on a single item never aborts the run: for every network world
and every input URL list, the orchestrator loop terminates normally (no
panic), and the log shows one "Processing URL" progress line per input URL in
order — per-link errors (digest calculation) and per-URL errors (page fetch)
are logged as stderr events in the same log and processing always advances
to the next item, so all remaining Target URLs are processed and the run
reaches its terminal state.
-/
theorem run_processes_all_urls (w : World) (urls : List Str) (db : DB) :
    ∃ db2 log, runAll w db urls = some (db2, log) ∧
      log.filterMap processedOf = urls :=
  runAll_total w urls db

/-- Result of a whole `main` invocation. -/
inductive MainResult : Type where
  | usage
  | inputError (msg : Str)
  | completed (db : DB) (log : List Event)
deriving Repr

/-- Model of `main` from `maplink.go`: flag check, file read, store open and
schema creation (modelled as always succeeding: their failure paths occur
only for genuine storage faults, which are outside the model), then the URL
loop over an initially empty table.  `filename` is the value of the `-file`
flag, `""` when the flag is absent; `file` is the outcome of reading that
file as its list of lines.  A `resolveLink` panic would abort the process
(`none`). -/
def main (filename : Str) (file : Except Str (List Str)) (w : World) :
    Option MainResult :=
  if filename = [] then some .usage
  else
    match file with
    | .error msg => some (.inputError msg)
    | .ok fileLines =>
      match runAll w [] (readURLsFromFile fileLines) with
      | none => none
      | some (db2, log) => some (.completed db2 log)

/--
C8: without the `-file` flag the filename keeps its default empty value and
`main` prints the usage message and returns before doing anything else: for
every possible file-read outcome and every network world the result is
`usage`, which carries no database and no log — no file is read, no store
opened, no record inserted, no URL processed.
-/
theorem main_no_flag_usage_only (file : Except Str (List Str)) (w : World) :
    main [] file w = some MainResult.usage := rfl

end Maplink
